import Mathlib

/-!
A verification development for the ws-api serial command link.

The Rust sources are embedded shallowly:
* bytes are `Nat` (values `0 ≤ b ≤ 255` where it matters);
* `Vec<u8>` is `List Nat`;
* a Rust `panic!` (process crash) is modelled by an explicit `crash`
  constructor of the result type, so "recoverable error" and "crash"
  are distinguishable outcomes;
* the byte-stuffing dependency (`cobs::encode_vec` / `cobs::decode_vec`)
  is embedded from the crate's reference COBS implementation.
-/

/-- `CommandType` from `lib.rs`: a closed enumeration of 8 tags,
numeric values 0-7. -/
inductive CommandType where
  | time
  | startupCommand
  | initialised
  | powerDown
  | timeAcknowledge
  | startupCommandAcknowledge
  | initialisedAcknowledge
  | powerDownAcknowledge
deriving DecidableEq, Repr

/-- The numeric discriminant of a `CommandType` (`command_type as u8`). -/
def CommandType.toByte : CommandType → Nat
  | .time => 0
  | .startupCommand => 1
  | .initialised => 2
  | .powerDown => 3
  | .timeAcknowledge => 4
  | .startupCommandAcknowledge => 5
  | .initialisedAcknowledge => 6
  | .powerDownAcknowledge => 7

/-- `impl From<u8> for CommandType` from `lib.rs`.  The Rust `match`
returns a tag for bytes 0-7 and executes `panic!("Invalid command type")`
for every other byte; the panic arm is modelled as `none`. -/
def commandTypeFromByte : Nat → Option CommandType
  | 0 => some .time
  | 1 => some .startupCommand
  | 2 => some .initialised
  | 3 => some .powerDown
  | 4 => some .timeAcknowledge
  | 5 => some .startupCommandAcknowledge
  | 6 => some .initialisedAcknowledge
  | 7 => some .powerDownAcknowledge
  | _ => none

/-- `Command` from `lib.rs`: a typed command with a byte payload. -/
structure Command where
  command_type : CommandType
  data : List Nat
deriving DecidableEq, Repr

/-- COBS byte stuffing, embedded from the `cobs` crate's `encode`
(the canonical Cheshire/Baker reference loop).  `blk` is the current
block of pending non-zero bytes in reverse order (the imperative code's
bytes written since the last code byte; invariant `blk.length ≤ 253`).
On a zero source byte the block is emitted with code `blk.length + 1`;
when a block reaches 254 data bytes it is emitted with code `0xFF`; at
the end of input the final block is emitted unconditionally. -/
def cobsEncodeAux : List Nat → List Nat → List Nat
  | [], blk => (blk.length + 1) :: blk.reverse
  | b :: rest, blk =>
    if b = 0 then
      ((blk.length + 1) :: blk.reverse) ++ cobsEncodeAux rest []
    else if blk.length = 253 then
      (255 :: (b :: blk).reverse) ++ cobsEncodeAux rest []
    else
      cobsEncodeAux rest (b :: blk)

/-- `cobs::encode_vec` from the `cobs` crate: COBS-encode a byte
sequence (no terminator byte is appended here). -/
def encode_vec (src : List Nat) : List Nat :=
  cobsEncodeAux src []

/-- `cobs::decode` from the `cobs` crate, embedded functionally.  Each
step reads a code byte, checks it against the remaining length
(`source_index + code > source.len() && code != 1` is the crate's error
condition), copies `code - 1` data bytes, and re-inserts a zero after
every block whose code is not `0xFF` unless the source is exhausted.
`none` is the crate's `Err(())`.  The `fuel` argument only makes the
recursion structural: every step consumes at least the code byte, so
starting from `fuel = src.length` the fuel can never run out. -/
def cobsDecodeGo : Nat → List Nat → Option (List Nat)
  | _, [] => some []
  | 0, _ :: _ => none
  | fuel + 1, code :: rest =>
    if rest.length + 1 < code ∧ code ≠ 1 then
      none
    else
      match cobsDecodeGo fuel (rest.drop (code - 1)) with
      | none => none
      | some tail =>
        some (rest.take (code - 1) ++
          (if code ≠ 255 ∧ rest.drop (code - 1) ≠ [] then 0 :: tail else tail))

/-- `cobs::decode_vec` from the `cobs` crate.  The destination buffer of
the imperative code is always large enough (the decoded output is never
longer than the input), so the wrapper adds nothing beyond the loop. -/
def decode_vec (src : List Nat) : Option (List Nat) :=
  cobsDecodeGo src.length src

/-- Result of `Command::from_bytes`.  Rust returns `Option<Command>`;
`crash` models the two panic paths of the Rust code (indexing
`decoded[0]` on an empty decode result, and `panic!` inside
`From<u8> for CommandType` on a tag byte ≥ 8). -/
inductive FromBytesResult where
  | some (c : Command)
  | none
  | crash
deriving DecidableEq, Repr

/-- `Command::to_bytes` from `lib.rs`: push the discriminant byte, append
the payload, COBS-encode, and append the `0x00` terminator. -/
def Command.to_bytes (c : Command) : List Nat :=
  encode_vec (c.command_type.toByte :: c.data) ++ [0]

/-- `Command::from_bytes` from `lib.rs`: find the first `0x00`; if none,
return `None`.  COBS-decode the region before it; on decode error return
`None`.  Then `decoded[0]` is converted with `From<u8>` (a panic for
bytes ≥ 8, and an out-of-bounds panic when `decoded` is empty) and the
rest becomes the payload. -/
def Command.from_bytes (bytes : List Nat) : FromBytesResult :=
  if 0 ∈ bytes then
    match decode_vec (bytes.take (bytes.findIdx (fun b => b == 0))) with
    | Option.none => .none
    | Option.some [] => .crash
    | Option.some (t :: rest) =>
      match commandTypeFromByte t with
      | Option.some ct => .some ⟨ct, rest⟩
      | Option.none => .crash
  else .none

/-! ## Timestamp conversion (`lib.rs`)

A `DateTime<Utc>` is modelled by its `timestamp_millis()` value, a
signed 64-bit millisecond count since the epoch (`datetime_to_bytes`
truncates any sub-millisecond precision before encoding, so nothing is
lost by this representation). -/

/-- Big-endian byte decomposition: `natToBeBytes k n` is the `k`-byte
big-endian representation of `n % 256^k` (the shape of Rust's
`i64::to_be_bytes` applied to the two's-complement bit pattern). -/
def natToBeBytes : Nat → Nat → List Nat
  | 0, _ => []
  | k + 1, n => natToBeBytes k (n / 256) ++ [n % 256]

/-- Big-endian byte composition, the shape of `i64::from_be_bytes`. -/
def beBytesToNat (bs : List Nat) : Nat :=
  bs.foldl (fun acc b => acc * 256 + b) 0

/-- `datetime_to_bytes` from `lib.rs`: `time.timestamp_millis()` followed
by `to_be_bytes().to_vec()`.  The two's-complement bit pattern of the
signed millisecond count is its value modulo `2^64`. -/
def datetime_to_bytes (millis : Int) : List Nat :=
  natToBeBytes 8 ((millis % 18446744073709551616).toNat)

/-- Result of `bytes_to_datetime`.  Rust returns `DateTime<Utc>` and has
two panic paths: slicing `bytes[..8]` with fewer than 8 bytes, and
`Utc.timestamp_millis_opt(..).unwrap()` on a millisecond count outside
chrono's representable range.  Both are modelled as `crash`. -/
inductive DatetimeResult where
  | ok (millis : Int)
  | crash
deriving DecidableEq, Repr

/-- `chrono::NaiveDateTime::MIN.timestamp_millis()`
(`-262144-01-01T00:00:00`). -/
def chronoMinMillis : Int := -8334632851200000

/-- `chrono::NaiveDateTime::MAX.timestamp_millis()`
(`+262143-12-31T23:59:59.999…`). -/
def chronoMaxMillis : Int := 8210298412799999

/-- `bytes_to_datetime` from `lib.rs`: copy the first 8 bytes (a panic
if fewer are supplied), interpret them as a big-endian signed 64-bit
millisecond count, and rebuild the `DateTime` (a panic if the count is
outside chrono's range). -/
def bytes_to_datetime (bytes : List Nat) : DatetimeResult :=
  if bytes.length < 8 then .crash
  else
    let n := beBytesToNat (bytes.take 8)
    let t : Int :=
      if n < 9223372036854775808 then (n : Int) else (n : Int) - 18446744073709551616
    if chronoMinMillis ≤ t ∧ t ≤ chronoMaxMillis then .ok t else .crash

/-! ## Frame transport (`uart.rs`, `UartConnection::receive_message`)

The polling loop is driven by an explicit schedule of events, one per
loop iteration, abstracting the clock and the serial port:
`deadline` is `start_time.elapsed() > timeout` evaluating to true at the
loop head; otherwise `port.read` either fails (`readErr`, the iteration
is skipped), returns one byte taken from the head of the pending stream
(`readByte`), or returns `Ok(0)` without filling the buffer
(`readEmpty` — the zero-initialised `buffer[0]` is then pushed, because
the code ignores the returned count).  The state of the serial line is
the list of bytes not yet consumed. -/

inductive PollEvent where
  | deadline
  | readErr
  | readByte
  | readEmpty
deriving DecidableEq, Repr

/-- The accumulation loop of `receive_message`: returns the accumulated
buffer `data` and the bytes left on the line, or `none` when the event
schedule is too short to drive the loop to its `break` (no Rust
counterpart: the real loop only stops via `deadline` or a `0x00`). -/
def receiveLoop : List PollEvent → List Nat → Option (List Nat × List Nat)
  | [], _ => none
  | .deadline :: _, stream => some ([], stream)
  | .readErr :: es, stream => receiveLoop es stream
  | .readEmpty :: _, stream => some ([0], stream)
  | .readByte :: _, [] => none
  | .readByte :: es, b :: rest =>
    if b = 0 then some ([b], rest)
    else
      match receiveLoop es rest with
      | some (d, r) => some (b :: d, r)
      | none => none

/-- `UartConnection::receive_message` from `uart.rs`: run the polling
loop, then hand whatever was accumulated to `Command::from_bytes`.  The
local buffer `data` is dropped afterwards; the connection struct holds
no buffer, so the second component (the unconsumed stream) is the only
state that survives the call. -/
def receive_message (events : List PollEvent) (stream : List Nat) :
    Option (FromBytesResult × List Nat) :=
  match receiveLoop events stream with
  | Option.none => Option.none
  | Option.some (data, rest) => Option.some (Command.from_bytes data, rest)

/-! ## File transfer protocol (`uart.rs`, `impl Ftp for UartConnection`)

The stream collaborator is modelled by the list of chunks successive
`read` calls return (each at most the 1024-byte buffer).  `Sha256` is an
external dependency, so `ftp` is parametrised by the digest function it
compares against. -/

/-- The five handshake tokens, written to the peer as literal ASCII
byte sequences. -/
inductive Token where
  | readyReceiveFile
  | receivedFileData
  | sendFileHash
  | receiveFileSuccess
  | receiveFileErrorRetry
deriving DecidableEq, Repr

/-- The literal bytes of each handshake token. -/
def Token.ascii : Token → String
  | .readyReceiveFile => "READY_RECEIVE_FILE"
  | .receivedFileData => "RECEIVED_FILE_DATA"
  | .sendFileHash => "SEND_FILE_HASH"
  | .receiveFileSuccess => "RECEIVE_FILE_SUCCESS"
  | .receiveFileErrorRetry => "RECEIVE_FILE_ERROR_RETRY"

/-- The read buffer size of the FTP loops (`let mut buffer = [0; 1024]`). -/
def CHUNK : Nat := 1024

/-- One field-reading loop of `ftp`: accumulate chunks until a chunk
shorter than the buffer arrives (short read = end-of-field sentinel).
Returns the consumed chunks and the rest of the stream; `none` when the
stream is exhausted first (the real loop would block). -/
def readField : List (List Nat) → Option (List (List Nat) × List (List Nat))
  | [] => none
  | c :: rest =>
    if c.length < CHUNK then some ([c], rest)
    else
      match readField rest with
      | some (cs, r) => some (c :: cs, r)
      | none => none

/-- `Read::read_exact` for the 32-byte hash buffer: keep issuing reads
(each returning at most the still-unfilled size) until the buffer is
full.  A zero-length read is `UnexpectedEof`; a chunk larger than the
remaining buffer cannot come from a conforming reader.  Both are
`none`, as is exhaustion of the stream. -/
def readExact : Nat → List (List Nat) → Option (List Nat × List (List Nat))
  | 0, chunks => some ([], chunks)
  | _ + 1, [] => none
  | n + 1, c :: rest =>
    if c.length = 0 then none
    else if c.length ≤ n + 1 then
      match readExact (n + 1 - c.length) rest with
      | some (t, r) => some (c ++ t, r)
      | none => none
    else none

/-- Validity of one UTF-8 encoded chunk, as checked by
`std::str::from_utf8` on each chunk of the filename phase (RFC 3629:
no overlongs, no surrogates, no code points above U+10FFFF). -/
def utf8Cont (b : Nat) : Bool := 128 ≤ b && b ≤ 191

/-- First continuation-byte range of a three-byte UTF-8 sequence. -/
def utf8Lead3 (b c1 : Nat) : Bool :=
  if b = 224 then 160 ≤ c1 && c1 ≤ 191
  else if b = 237 then 128 ≤ c1 && c1 ≤ 159
  else utf8Cont c1

/-- First continuation-byte range of a four-byte UTF-8 sequence. -/
def utf8Lead4 (b c1 : Nat) : Bool :=
  if b = 240 then 144 ≤ c1 && c1 ≤ 191
  else if b = 244 then 128 ≤ c1 && c1 ≤ 143
  else utf8Cont c1

/-- Whether a byte sequence is valid UTF-8 (`str::from_utf8` succeeds). -/
def utf8Valid : List Nat → Bool
  | [] => true
  | b :: rest =>
    if b ≤ 127 then utf8Valid rest
    else if 194 ≤ b ∧ b ≤ 223 then
      match rest with
      | c1 :: r => utf8Cont c1 && utf8Valid r
      | [] => false
    else if 224 ≤ b ∧ b ≤ 239 then
      match rest with
      | c1 :: c2 :: r => utf8Lead3 b c1 && utf8Cont c2 && utf8Valid r
      | _ => false
    else if 240 ≤ b ∧ b ≤ 244 then
      match rest with
      | c1 :: c2 :: c3 :: r => utf8Lead4 b c1 && utf8Cont c2 && utf8Cont c3 && utf8Valid r
      | _ => false
    else false

/-- `file_name.trim_end_matches(char::from(0))`: strip trailing NUL
padding.  NUL is a one-byte code point, so the byte-level and
char-level operations coincide on valid UTF-8. -/
def trimTrailingZeros (bs : List Nat) : List Nat :=
  (bs.reverse.dropWhile (fun b => b == 0)).reverse

/-- `.rsplit('/').next().unwrap()`: keep only the part after the last
`'/'` (byte 47).  In valid UTF-8 the byte 47 occurs only as the ASCII
character `/` (continuation bytes are ≥ 128), so the byte-level split
coincides with the char-level one. -/
def lastPathSegment : List Nat → List Nat
  | [] => []
  | b :: rest => if b = 47 ∨ 47 ∈ rest then lastPathSegment rest else b :: rest

/-- Observable outcome of one `ftp` call: the handshake tokens written
to the peer, in order; the file persisted to storage
(`File::create` + `write_all`), if any, as `(name, contents)`; and
whether the call returned `Ok` to the local caller. -/
structure FtpOutcome where
  tokens : List Token
  persisted : Option (List Nat × List Nat)
  ok : Bool
deriving DecidableEq, Repr

/-- `Ftp::ftp for UartConnection` from `uart.rs`, as a function of the
chunk stream.  Phase 1 reads filename chunks until a short read,
validating each chunk as UTF-8 (an invalid chunk aborts with an I/O
error before any token is sent — `none`); the filename is then
sanitized and `READY_RECEIVE_FILE` goes out.  Phase 2 reads body chunks
until a short read, then `RECEIVED_FILE_DATA` and `SEND_FILE_HASH` go
out.  Phase 3 reads exactly 32 hash bytes and compares them with
`digest` of the body: on match `RECEIVE_FILE_SUCCESS` is sent and the
body is persisted under the sanitized name; on mismatch
`RECEIVE_FILE_ERROR_RETRY` is sent, nothing is persisted, and the call
returns an error. -/
def ftp (digest : List Nat → List Nat) (chunks : List (List Nat)) : Option FtpOutcome :=
  match readField chunks with
  | Option.none => Option.none
  | Option.some (fcs, r1) =>
    if fcs.all (fun c => utf8Valid c) then
      let fname := lastPathSegment (trimTrailingZeros fcs.flatten)
      match readField r1 with
      | Option.none => Option.none
      | Option.some (dcs, r2) =>
        let fileData := dcs.flatten
        match readExact 32 r2 with
        | Option.none => Option.none
        | Option.some (hashBuf, _) =>
          if hashBuf = digest fileData then
            Option.some ⟨[.readyReceiveFile, .receivedFileData, .sendFileHash,
              .receiveFileSuccess], Option.some (fname, fileData), true⟩
          else
            Option.some ⟨[.readyReceiveFile, .receivedFileData, .sendFileHash,
              .receiveFileErrorRetry], Option.none, false⟩
    else Option.none

/-- A well-formed field on the wire: at least one read; every read but
the last fills the whole 1024-byte buffer; the last is a short read. -/
def validFieldB : List (List Nat) → Bool
  | [] => false
  | [c] => decide (c.length < CHUNK)
  | c :: c2 :: cs => decide (c.length = CHUNK) && validFieldB (c2 :: cs)

example : encode_vec [2] = [2, 2] := by decide

example : Command.to_bytes ⟨.initialised, []⟩ = [2, 2, 0] := by decide

example : Command.from_bytes [2, 2, 0] = .some ⟨.initialised, []⟩ := by decide

example : Command.from_bytes [2, 8, 0] = .crash := by decide

example : Command.from_bytes [5, 1, 2] = .none := by decide

example : Command.from_bytes [0, 7, 7] = .crash := by decide

example :
    Command.from_bytes (Command.to_bytes ⟨.startupCommand, [1, 0, 2, 0]⟩) =
      .some ⟨.startupCommand, [1, 0, 2, 0]⟩ := by decide

/-! ## COBS correctness -/

theorem cobsEncodeAux_ne_nil (src : List Nat) : ∀ blk, cobsEncodeAux src blk ≠ [] := by
  induction src with
  | nil => intro blk; simp [cobsEncodeAux]
  | cons b rest ih =>
    intro blk
    by_cases hb : b = 0
    · simp [cobsEncodeAux, hb]
    · by_cases hl : blk.length = 253
      · simp [cobsEncodeAux, hb, hl]
      · simpa [cobsEncodeAux, hb, hl] using ih (b :: blk)

theorem cobsEncodeAux_zero_not_mem (src : List Nat) :
    ∀ blk, (∀ x ∈ blk, x ≠ 0) → 0 ∉ cobsEncodeAux src blk := by
  induction src with
  | nil =>
    intro blk hblk
    simp only [cobsEncodeAux, List.mem_cons, List.mem_reverse]
    rintro (h | h)
    · exact absurd h.symm (Nat.succ_ne_zero _)
    · exact hblk 0 h rfl
  | cons b rest ih =>
    intro blk hblk
    by_cases hb : b = 0
    · simp only [cobsEncodeAux, if_pos hb, List.cons_append, List.mem_cons,
        List.mem_append, List.mem_reverse]
      rintro (h | h | h)
      · exact absurd h.symm (Nat.succ_ne_zero _)
      · exact hblk 0 h rfl
      · exact ih [] (by simp) h
    · by_cases hl : blk.length = 253
      · simp only [cobsEncodeAux, if_neg hb, if_pos hl, List.cons_append, List.mem_cons,
          List.mem_append, List.mem_reverse]
        rintro (h | h | h)
        · exact absurd h.symm (by norm_num)
        · rcases h with h' | h'
          · exact hb h'.symm
          · exact hblk 0 h' rfl
        · exact ih [] (by simp) h
      · have henc : cobsEncodeAux (b :: rest) blk = cobsEncodeAux rest (b :: blk) := by
          simp [cobsEncodeAux, hb, hl]
        rw [henc]
        refine ih (b :: blk) ?_
        intro x hx
        rcases List.mem_cons.mp hx with h' | h'
        · subst h'; exact hb
        · exact hblk x h'

/-- Unfold one step of the decoder on a block-shaped input: a code byte
`b.length + 1`, the `b.length` data bytes of the block, then the rest of
the stream. -/
theorem cobsDecodeGo_step (f : Nat) (b E : List Nat) :
    cobsDecodeGo (f + 1) ((b.length + 1) :: (b ++ E)) =
      match cobsDecodeGo f E with
      | Option.none => Option.none
      | Option.some tail =>
        Option.some (b ++ (if b.length + 1 ≠ 255 ∧ E ≠ [] then 0 :: tail else tail)) := by
  rw [cobsDecodeGo]
  rw [if_neg (by simp)]
  have h1 : b.length + 1 - 1 = b.length := by omega
  rw [h1, List.take_left, List.drop_left]

theorem cobsDecodeGo_encodeAux (src : List Nat) :
    ∀ blk fuel, blk.length ≤ 253 → (cobsEncodeAux src blk).length ≤ fuel →
      cobsDecodeGo fuel (cobsEncodeAux src blk) = some (blk.reverse ++ src) := by
  induction src with
  | nil =>
    intro blk fuel hblk hfuel
    have henc : cobsEncodeAux [] blk =
        (blk.reverse.length + 1) :: (blk.reverse ++ []) := by
      simp [cobsEncodeAux]
    rw [henc] at hfuel ⊢
    cases fuel with
    | zero => simp at hfuel
    | succ f =>
      rw [cobsDecodeGo_step f blk.reverse []]
      simp [cobsDecodeGo]
  | cons x rest ih =>
    intro blk fuel hblk hfuel
    by_cases hx : x = 0
    · subst hx
      have henc : cobsEncodeAux (0 :: rest) blk =
          (blk.reverse.length + 1) :: (blk.reverse ++ cobsEncodeAux rest []) := by
        simp [cobsEncodeAux]
      rw [henc] at hfuel ⊢
      cases fuel with
      | zero => simp at hfuel
      | succ f =>
        have hE : (cobsEncodeAux rest []).length ≤ f := by
          simp only [List.length_cons, List.length_append] at hfuel
          omega
        have hne := cobsEncodeAux_ne_nil rest []
        rw [cobsDecodeGo_step f blk.reverse (cobsEncodeAux rest []),
          ih [] f (by simp) hE]
        simp [hne]
        omega
    · by_cases hl : blk.length = 253
      · have henc : cobsEncodeAux (x :: rest) blk =
            ((x :: blk).reverse.length + 1) :: ((x :: blk).reverse ++ cobsEncodeAux rest []) := by
          simp [cobsEncodeAux, hx, hl]
        rw [henc] at hfuel ⊢
        cases fuel with
        | zero => simp at hfuel
        | succ f =>
          have hE : (cobsEncodeAux rest []).length ≤ f := by
            simp only [List.length_cons, List.length_append] at hfuel
            omega
          rw [cobsDecodeGo_step f (x :: blk).reverse (cobsEncodeAux rest []),
            ih [] f (by simp) hE]
          simp [hl]
      · have hblk' : (x :: blk).length ≤ 253 := by
          simp only [List.length_cons]
          omega
        have henc : cobsEncodeAux (x :: rest) blk = cobsEncodeAux rest (x :: blk) := by
          simp [cobsEncodeAux, hx, hl]
        rw [henc] at hfuel ⊢
        rw [ih (x :: blk) fuel hblk' hfuel]
        simp

/-- Decoding inverts encoding: `cobs::decode_vec ∘ cobs::encode_vec = id`. -/
theorem decode_encode_vec (src : List Nat) : decode_vec (encode_vec src) = some src := by
  have := cobsDecodeGo_encodeAux src [] (cobsEncodeAux src []).length (by simp) le_rfl
  simpa [decode_vec, encode_vec] using this

/-- The stuffed region contains no zero byte. -/
theorem encode_vec_zero_not_mem (src : List Nat) : 0 ∉ encode_vec src :=
  cobsEncodeAux_zero_not_mem src [] (by simp)

/-! ## `Command::from_bytes` structure -/

theorem findIdx_zero_append (p s : List Nat) (hp : 0 ∉ p) :
    (p ++ 0 :: s).findIdx (fun b => b == 0) = p.length := by
  induction p with
  | nil => simp [List.findIdx_cons]
  | cons a p ih =>
    have ha : a ≠ 0 := fun h => hp (by simp [h])
    have hp' : 0 ∉ p := fun h => hp (List.mem_cons_of_mem _ h)
    have hb : (a == 0) = false := by simp [ha]
    simp [List.findIdx_cons, hb, ih hp']

/-- Evaluate `Command::from_bytes` on an input split at its first zero
byte: the region before the terminator is un-stuffed and inspected. -/
theorem from_bytes_split (p s : List Nat) (hp : 0 ∉ p) :
    Command.from_bytes (p ++ 0 :: s) =
      match decode_vec p with
      | Option.none => FromBytesResult.none
      | Option.some [] => FromBytesResult.crash
      | Option.some (t :: rest) =>
        match commandTypeFromByte t with
        | Option.some ct => FromBytesResult.some ⟨ct, rest⟩
        | Option.none => FromBytesResult.crash := by
  have hmem : (0 : Nat) ∈ p ++ 0 :: s := by simp
  unfold Command.from_bytes
  rw [if_pos hmem, findIdx_zero_append p s hp, List.take_left]

theorem from_bytes_no_zero (bytes : List Nat) (h : 0 ∉ bytes) :
    Command.from_bytes bytes = .none := by
  unfold Command.from_bytes
  rw [if_neg h]

theorem commandTypeFromByte_toByte (t : CommandType) :
    commandTypeFromByte t.toByte = some t := by
  cases t <;> rfl

theorem commandTypeFromByte_ge8 (t : Nat) (ht : 8 ≤ t) :
    commandTypeFromByte t = Option.none := by
  obtain ⟨k, rfl⟩ := Nat.exists_eq_add_of_le ht
  rw [Nat.add_comm]
  rfl

/-- Encode/decode round-trip for whole commands. -/
theorem to_from_bytes (c : Command) :
    Command.from_bytes (Command.to_bytes c) = .some c := by
  obtain ⟨t, data⟩ := c
  unfold Command.to_bytes
  rw [from_bytes_split (encode_vec (CommandType.toByte t :: data)) []
    (encode_vec_zero_not_mem _)]
  rw [decode_encode_vec]
  simp [commandTypeFromByte_toByte]

/-- C2: for every one of the 8 `CommandType` values and every byte
payload (arbitrary bytes, zero bytes included), decoding the encoding
returns the same command. -/
theorem claim_C2 (t : CommandType) (data : List Nat) ( _hdata : ∀ b ∈ data, b < 256) :
    Command.from_bytes (Command.to_bytes ⟨t, data⟩) = .some ⟨t, data⟩ :=
  to_from_bytes ⟨t, data⟩

theorem claim_C2_witness :
    Command.from_bytes (Command.to_bytes ⟨.time, [0, 1, 255, 0]⟩) =
      .some ⟨.time, [0, 1, 255, 0]⟩ :=
  claim_C2 .time [0, 1, 255, 0] (by decide)

/-- C3: every frame produced by `Command::to_bytes` contains exactly one
`0x00` byte, and it is the last byte of the frame. -/
theorem claim_C3 (c : Command) :
    (Command.to_bytes c).count 0 = 1 ∧ (Command.to_bytes c).getLast? = some 0 := by
  constructor
  · unfold Command.to_bytes
    rw [List.count_append,
      List.count_eq_zero.mpr (encode_vec_zero_not_mem (CommandType.toByte c.command_type :: c.data))]
    rfl
  · unfold Command.to_bytes
    exact List.getLast?_concat _

/-- C8: an input with no `0x00` anywhere decodes to `None` (the
`Truncated` condition), with no crash. -/
theorem claim_C8 (bytes : List Nat) (h : 0 ∉ bytes) :
    Command.from_bytes bytes = .none :=
  from_bytes_no_zero bytes h

theorem claim_C8_witness : Command.from_bytes [3, 1, 255, 42] = .none :=
  claim_C8 [3, 1, 255, 42] (by decide)

/-- C9: `Command::from_bytes` depends only on the bytes up to and
including the first `0x00`. -/
theorem claim_C9 (p s : List Nat) (hp : 0 ∉ p) :
    Command.from_bytes (p ++ 0 :: s) = Command.from_bytes (p ++ [0]) := by
  rw [from_bytes_split p s hp, from_bytes_split p [] hp]

theorem claim_C9_witness :
    Command.from_bytes ([2, 2] ++ 0 :: [9, 9]) = Command.from_bytes ([2, 2] ++ [0]) :=
  claim_C9 [2, 2] [9, 9] (by decide)

/-- C1, as stated, is false: a frame whose un-stuffed region begins with
a tag byte ≥ 8 does not produce a recoverable `UnknownType` result — the
Rust code panics in `From<u8> for CommandType` (`crash`), aborting the
process.  `[2, 8, 0]` is the COBS frame of the single tag byte `8`. -/
theorem claim_C1_counterexample : Command.from_bytes [2, 8, 0] = .crash := by decide

/-- C1 amended: for every input containing a `0x00` terminator whose
un-stuffed region begins with a tag byte of 8 or greater, decoding
panics (`crash`) instead of returning a recoverable error. -/
theorem claim_C1_amended (p s : List Nat) (t : Nat) (rest : List Nat)
    (hp : 0 ∉ p) (hdec : decode_vec p = some (t :: rest)) (ht : 8 ≤ t) :
    Command.from_bytes (p ++ 0 :: s) = .crash := by
  rw [from_bytes_split p s hp, hdec]
  simp [commandTypeFromByte_ge8 t ht]

theorem claim_C1_witness :
    (0 : Nat) ∉ ([2, 8] : List Nat) ∧ decode_vec [2, 8] = some [8] ∧ 8 ≤ 8 ∧
      Command.from_bytes ([2, 8] ++ 0 :: []) = .crash :=
  ⟨by decide, by decide, by decide,
    claim_C1_amended [2, 8] [] 8 [] (by decide) (by decide) (by decide)⟩

/-! ## Timestamp round-trip -/

theorem natToBeBytes_length (k : Nat) : ∀ n, (natToBeBytes k n).length = k := by
  induction k with
  | zero => intro n; rfl
  | succ k ih => intro n; simp [natToBeBytes, ih]

theorem foldl_natToBeBytes (k : Nat) : ∀ n acc,
    (natToBeBytes k n).foldl (fun a b => a * 256 + b) acc = acc * 256 ^ k + n % 256 ^ k := by
  induction k with
  | zero => intro n acc; simp [natToBeBytes, Nat.mod_one]
  | succ k ih =>
    intro n acc
    rw [natToBeBytes, List.foldl_append, ih (n / 256) acc]
    simp only [List.foldl_cons, List.foldl_nil]
    have hpow : (256 : Nat) ^ (k + 1) = 256 * 256 ^ k := by ring
    rw [hpow, Nat.mod_mul]
    ring

theorem beBytesToNat_natToBeBytes (n : Nat) (h : n < 18446744073709551616) :
    beBytesToNat (natToBeBytes 8 n) = n := by
  unfold beBytesToNat
  rw [foldl_natToBeBytes 8 n 0]
  have hpow : (256 : Nat) ^ 8 = 18446744073709551616 := by norm_num
  rw [hpow, Nat.zero_mul, Nat.zero_add]
  exact Nat.mod_eq_of_lt h

/-- C6, as stated, is false: on fewer than 8 bytes `bytes_to_datetime`
does not fail with a recoverable `InvalidTimestamp` — the Rust code
panics slicing `bytes[..8]` out of bounds (`crash`). -/
theorem claim_C6_counterexample : bytes_to_datetime [0, 0, 0, 0, 0, 0, 0] = .crash := by
  decide

/-- C6 amended: on fewer than 8 bytes `bytes_to_datetime` panics
(`crash`); on inputs beginning with the 8 bytes of `datetime_to_bytes t`
(for any millisecond timestamp `t` representable by chrono, further
bytes ignored) it is the exact millisecond-precision inverse. -/
theorem claim_C6_amended :
    (∀ bs : List Nat, bs.length < 8 → bytes_to_datetime bs = .crash) ∧
    (∀ (t : Int) (extra : List Nat), chronoMinMillis ≤ t → t ≤ chronoMaxMillis →
      bytes_to_datetime (datetime_to_bytes t ++ extra) = .ok t) := by
  constructor
  · intro bs h
    unfold bytes_to_datetime
    rw [if_pos h]
  · intro t extra h1 h2
    unfold chronoMinMillis at h1
    unfold chronoMaxMillis at h2
    have hlen : (datetime_to_bytes t).length = 8 := natToBeBytes_length 8 _
    have hm0 : (0 : Int) ≤ t % 18446744073709551616 := by omega
    have hmval : (((t % 18446744073709551616).toNat : Nat) : Int) =
        t % 18446744073709551616 := Int.toNat_of_nonneg hm0
    have hmlt : (t % 18446744073709551616).toNat < 18446744073709551616 := by omega
    unfold bytes_to_datetime
    rw [if_neg (by rw [List.length_append, hlen]; omega)]
    rw [List.take_left' hlen]
    unfold datetime_to_bytes
    rw [beBytesToNat_natToBeBytes _ hmlt]
    simp only []
    by_cases hcase : (t % 18446744073709551616).toNat < 9223372036854775808
    · rw [if_pos hcase]
      have ht : (((t % 18446744073709551616).toNat : Nat) : Int) = t := by omega
      rw [ht, if_pos (by unfold chronoMinMillis chronoMaxMillis; omega)]
    · rw [if_neg hcase]
      have ht : (((t % 18446744073709551616).toNat : Nat) : Int) - 18446744073709551616 = t := by
        omega
      rw [ht, if_pos (by unfold chronoMinMillis chronoMaxMillis; omega)]

theorem claim_C6_witness :
    bytes_to_datetime [1, 2, 3, 4, 5, 6, 7] = .crash ∧
      bytes_to_datetime (datetime_to_bytes (-12345) ++ [9]) = .ok (-12345) :=
  ⟨claim_C6_amended.1 [1, 2, 3, 4, 5, 6, 7] (by decide),
    claim_C6_amended.2 (-12345) [9] (by decide) (by decide)⟩

/-! ## Frame transport: the polling loop -/

/-- Structure of every completed run of the polling loop: the consumed
bytes `cs` are removed from the front of the stream; the accumulated
buffer is the consumed bytes, possibly with a trailing zero pushed by an
`Ok(0)` read; and a zero can occur in the buffer only as its final
element (the loop breaks as soon as a zero is pushed). -/
theorem receiveLoop_split (events : List PollEvent) :
    ∀ stream data rest, receiveLoop events stream = some (data, rest) →
      0 ∉ data.dropLast ∧ ∃ cs, stream = cs ++ rest ∧ (data = cs ∨ data = cs ++ [0]) := by
  induction events with
  | nil =>
    intro stream data rest h
    simp [receiveLoop] at h
  | cons e es ih =>
    intro stream data rest h
    cases e with
    | deadline =>
      simp only [receiveLoop, Option.some.injEq, Prod.mk.injEq] at h
      obtain ⟨rfl, rfl⟩ := h
      exact ⟨by simp, [], by simp, Or.inl rfl⟩
    | readErr =>
      simp only [receiveLoop] at h
      exact ih stream data rest h
    | readEmpty =>
      simp only [receiveLoop, Option.some.injEq, Prod.mk.injEq] at h
      obtain ⟨rfl, rfl⟩ := h
      exact ⟨by simp, [], by simp, Or.inr (by simp)⟩
    | readByte =>
      cases stream with
      | nil => simp [receiveLoop] at h
      | cons b rest' =>
        simp only [receiveLoop] at h
        by_cases hb : b = 0
        · rw [if_pos hb] at h
          simp only [Option.some.injEq, Prod.mk.injEq] at h
          obtain ⟨rfl, rfl⟩ := h
          subst hb
          exact ⟨by simp, [0], by simp, Or.inl rfl⟩
        · rw [if_neg hb] at h
          cases hrec : receiveLoop es rest' with
          | none => rw [hrec] at h; simp at h
          | some dr =>
            obtain ⟨d, r⟩ := dr
            rw [hrec] at h
            simp only [Option.some.injEq, Prod.mk.injEq] at h
            obtain ⟨rfl, rfl⟩ := h
            obtain ⟨hd1, cs, hcs, hor⟩ := ih rest' d r hrec
            refine ⟨?_, b :: cs, by simp [hcs], ?_⟩
            · cases d with
              | nil => simp
              | cons d1 ds =>
                simp only [List.dropLast_cons_of_ne_nil (List.cons_ne_nil d1 ds),
                  List.mem_cons]
                rintro (h' | h')
                · exact hb h'.symm
                · exact hd1 (by simpa using h')
            · rcases hor with h' | h'
              · exact Or.inl (by rw [h'])
              · exact Or.inr (by rw [h']; simp)

/-- C10: the accumulation buffer contains a `0x00` only as its final
element, and the call consumes exactly the accumulated bytes from the
stream (so bytes after the terminator are left for the next call; an
`Ok(0)` read contributes the trailing zero without consuming). -/
theorem claim_C10 (events : List PollEvent) (stream data rest : List Nat)
    (h : receiveLoop events stream = some (data, rest)) :
    0 ∉ data.dropLast ∧ ∃ cs, stream = cs ++ rest ∧ (data = cs ∨ data = cs ++ [0]) :=
  receiveLoop_split events stream data rest h

theorem claim_C10_witness :
    0 ∉ ([2, 2, 0] : List Nat).dropLast ∧
      ∃ cs, ([2, 2, 0, 7] : List Nat) = cs ++ [7] ∧
        (([2, 2, 0] : List Nat) = cs ∨ ([2, 2, 0] : List Nat) = cs ++ [0]) :=
  claim_C10 [.readByte, .readByte, .readByte] [2, 2, 0, 7] [2, 2, 0] [7] (by decide)

/-- C7, as stated, is false: bytes collected before the overall timeout
are *not* available to the next read call.  Concretely, with the frame
`[2, 2, 0]` (the encoding of `Initialised`) on the line, a first call
that times out after consuming `[2, 2]` returns no command and leaves
only `[0]` on the line; the two consumed bytes are dropped with the
local buffer, so a second call sees `[0]` alone — and crashes in
`from_bytes` (`decoded[0]` on an empty un-stuffed region) instead of
decoding the frame the claim says it would still see. -/
theorem claim_C7_counterexample :
    receive_message [.readByte, .readByte, .deadline] [2, 2, 0] =
        some (.none, [0]) ∧
      receive_message [.readByte] [0] = some (.crash, []) :=
  ⟨by decide, by decide⟩

/-- C7 amended: when the overall timeout elapses before a `0x00`
arrives, the call surfaces no command, and the bytes collected in that
call have been consumed from the stream and discarded (the connection
keeps no buffer, so only the remainder `rest` is available to the next
call). -/
theorem claim_C7_amended (events : List PollEvent) (stream data rest : List Nat)
    (h : receiveLoop events stream = some (data, rest)) (h0 : 0 ∉ data) :
    receive_message events stream = some (.none, rest) ∧ stream = data ++ rest := by
  obtain ⟨-, cs, hcs, hor⟩ := receiveLoop_split events stream data rest h
  have hdc : data = cs := by
    rcases hor with h' | h'
    · exact h'
    · exact absurd (by rw [h']; simp : (0 : Nat) ∈ data) h0
  refine ⟨?_, by rw [hdc]; exact hcs⟩
  simp [receive_message, h, from_bytes_no_zero data h0]

theorem claim_C7_witness :
    receive_message [.readByte, .deadline] [5, 6] = some (.none, [6]) ∧
      ([5, 6] : List Nat) = [5] ++ [6] :=
  claim_C7_amended [.readByte, .deadline] [5, 6] [5] [6] (by decide) (by decide)

/-! ## File transfer protocol -/

/-- One step of the field-reading loop on a full (non-short) chunk. -/
theorem readField_cons_full (c : List Nat) (tail : List (List Nat)) (hc : ¬c.length < CHUNK) :
    readField (c :: tail) =
      match readField tail with
      | some (cs, r) => some (c :: cs, r)
      | none => none := by
  simp only [readField, if_neg hc]

/-- A well-formed field (full chunks then one short chunk) is consumed
exactly by the field-reading loop, leaving the rest of the stream. -/
theorem readField_append (cs : List (List Nat)) :
    ∀ rest, validFieldB cs = true → readField (cs ++ rest) = some (cs, rest) := by
  induction cs with
  | nil =>
    intro rest h
    simp [validFieldB] at h
  | cons c cs ih =>
    intro rest h
    cases cs with
    | nil =>
      have hc : c.length < CHUNK := by simpa [validFieldB] using h
      simp [readField, hc]
    | cons c2 cs2 =>
      simp only [validFieldB, Bool.and_eq_true, decide_eq_true_eq] at h
      obtain ⟨h1, h2⟩ := h
      rw [List.cons_append, readField_cons_full c _ (by omega), ih rest h2]

/-- `read_exact` on a single chunk holding the entire 32-byte hash. -/
theorem readExact_single (hs : List Nat) (h : hs.length = 32) :
    readExact 32 [hs] = some (hs, []) := by
  rw [show (32 : Nat) = 31 + 1 from rfl, readExact]
  rw [if_neg (by omega), if_pos (by omega)]
  rw [show (31 + 1 - hs.length : Nat) = 0 from by omega, readExact]
  simp

/-- C4: a successful end-to-end transfer — well-formed filename and body
fields, a 32-byte hash equal to the digest of the body, a filename
containing a directory component — emits the four tokens in order and
persists the body under the last path segment of the filename
(directory components and trailing NUL padding stripped). -/
theorem claim_C4 (digest : List Nat → List Nat) (fcs dcs : List (List Nat)) (hs : List Nat)
    (hf : validFieldB fcs = true) (hutf : fcs.all (fun c => utf8Valid c) = true)
    (hd : validFieldB dcs = true) (hlen : hs.length = 32)
    ( _hdir : 47 ∈ fcs.flatten) (hhash : hs = digest dcs.flatten) :
    ftp digest (fcs ++ dcs ++ [hs]) =
      some ⟨[.readyReceiveFile, .receivedFileData, .sendFileHash, .receiveFileSuccess],
        some (lastPathSegment (trimTrailingZeros fcs.flatten), dcs.flatten), true⟩ := by
  unfold ftp
  rw [List.append_assoc, readField_append fcs (dcs ++ [hs]) hf]
  simp only [hutf, if_true]
  rw [readField_append dcs [hs] hd]
  simp only []
  rw [readExact_single hs hlen]
  simp only []
  rw [if_pos hhash]

/-- C5: a transfer whose received 32-byte hash differs from the digest
of the body emits `RECEIVE_FILE_ERROR_RETRY` as its final token,
returns a failure to the caller, and persists nothing. -/
theorem claim_C5 (digest : List Nat → List Nat) (fcs dcs : List (List Nat)) (hs : List Nat)
    (hf : validFieldB fcs = true) (hutf : fcs.all (fun c => utf8Valid c) = true)
    (hd : validFieldB dcs = true) (hlen : hs.length = 32)
    (hhash : hs ≠ digest dcs.flatten) :
    ftp digest (fcs ++ dcs ++ [hs]) =
      some ⟨[.readyReceiveFile, .receivedFileData, .sendFileHash, .receiveFileErrorRetry],
        Option.none, false⟩ := by
  unfold ftp
  rw [List.append_assoc, readField_append fcs (dcs ++ [hs]) hf]
  simp only [hutf, if_true]
  rw [readField_append dcs [hs] hd]
  simp only []
  rw [readExact_single hs hlen]
  simp only []
  rw [if_neg hhash]

theorem claim_C4_witness :
    ftp (fun _ => List.replicate 32 7) ([[47, 111, 53, 0]] ++ [[1, 2, 3]] ++ [List.replicate 32 7]) =
      some ⟨[.readyReceiveFile, .receivedFileData, .sendFileHash, .receiveFileSuccess],
        some ([111, 53], [1, 2, 3]), true⟩ := by
  have h := claim_C4 (fun _ => List.replicate 32 7) [[47, 111, 53, 0]] [[1, 2, 3]]
    (List.replicate 32 7) (by decide) (by decide) (by decide) (by decide) (by decide) rfl
  simpa using h

theorem claim_C5_witness :
    ftp (fun _ => List.replicate 32 7) ([[47, 111, 53, 0]] ++ [[1, 2, 3]] ++ [List.replicate 32 9]) =
      some ⟨[.readyReceiveFile, .receivedFileData, .sendFileHash, .receiveFileErrorRetry],
        Option.none, false⟩ := by
  have h := claim_C5 (fun _ => List.replicate 32 7) [[47, 111, 53, 0]] [[1, 2, 3]]
    (List.replicate 32 9) (by decide) (by decide) (by decide) (by decide) (by decide)
  simpa using h
